import Mathlib

/-!
Verification of the market-making trader (`src/trader.py`).

The development shallowly embeds the two components of the program:

* the quoting engine `market_making_strategy` (fair-value estimation,
  liquidation window update, opportunistic crossing, liquidation orders,
  resting remainder), and
* the cycle wrapper `run` (JSON state restore, per-product loop, snapshot).

Modelling conventions:

* Python ints are `Int`; `x // 2` is `x / 2` (Lean's `Int` division is
  Euclidean, which agrees with Python floor division for positive divisors).
* Order book sides are association lists `List (Int × Int)` (price, volume);
  Python dict keys are distinct prices, so sorting the items sorts by price.
* `round` on a `.5`-exact float uses Python's round-half-to-even; the values
  occurring here (`(a + b) / 2` for ints) are exactly representable, so the
  rounding is modelled exactly by `pyRoundHalf`.
* Python dicts are association lists with first-match lookup and
  insertion-order update (`aset`).
* The persisted trader-data string is modelled by its parse outcome `Blob`:
  the empty string, a JSON decoding failure, or a decoded JSON value `JVal`;
  `json.dumps`/`json.loads` is injective and lossless on the values the
  program ever serialises (objects of bools/ints), so the string layer is
  elided.  Python runtime errors other than `json.JSONDecodeError`
  (TypeError, AttributeError) are modelled as `Except.error`; the program
  does not catch them.
-/

namespace TraderModel

/-- Association-list lookup, first match wins (Python dict lookup). -/
def alookup {α : Type} : List (String × α) → String → Option α
  | [], _ => none
  | (k, v) :: rest, s => if k = s then some v else alookup rest s

/-- Association-list update: overwrite an existing key in place, otherwise
append at the end (Python dict insertion-order semantics). -/
def aset {α : Type} : List (String × α) → String → α → List (String × α)
  | [], k, v => [(k, v)]
  | (k', v') :: rest, k, v =>
    if k' = k then (k, v) :: rest else (k', v') :: aset rest k v

/-! ## The quoting engine (`market_making_strategy`) -/

/-- `sorted(buy_orders.items(), reverse=True)`: descending by price
(prices are distinct dict keys, so the tuple order is the price order). -/
def sortDescP (l : List (Int × Int)) : List (Int × Int) :=
  List.insertionSort (fun a b => b.1 ≤ a.1) l

/-- `sorted(sell_orders.items())`: ascending by price. -/
def sortAscP (l : List (Int × Int)) : List (Int × Int) :=
  List.insertionSort (fun a b => a.1 ≤ b.1) l

/-- `max(l, key=lambda tup: tup[1])`: first element with maximal second
component (Python `max` keeps the earlier element on ties).  The `(0, 0)`
base case is unreachable: the caller only quotes two-sided books. -/
def pyMaxBySnd : List (Int × Int) → Int × Int
  | [] => (0, 0)
  | x :: xs => xs.foldl (fun acc y => if acc.2 < y.2 then y else acc) x

/-- `min(l, key=lambda tup: tup[1])`: first element with minimal second
component. -/
def pyMinBySnd : List (Int × Int) → Int × Int
  | [] => (0, 0)
  | x :: xs => xs.foldl (fun acc y => if y.2 < acc.2 then y else acc) x

/-- Python `round(s / 2)` for an integer `s`: the float `s / 2` is exact
(a multiple of one half), and Python rounds exact halves to the nearest
even integer. -/
def pyRoundHalf (s : Int) : Int :=
  if s % 2 = 0 then s / 2
  else
    let lo := (s - 1) / 2
    if lo % 2 = 0 then lo else lo + 1

/-- `window.append(b)` on a `deque(maxlen=10)`: append, evicting from the
front anything past capacity 10. -/
def pushWindow (w : List Bool) (b : Bool) : List Bool :=
  let w' := w ++ [b]
  w'.drop (w'.length - 10)

/-- `sum(window)`: `True` counts as 1. -/
def windowSum (w : List Bool) : Nat := w.countP id

/-- `len(window) == 10 and sum(window) >= 5 and window[-1]`. -/
def softLiquidateB (w : List Bool) : Bool :=
  (w.length == 10) && decide (5 ≤ windowSum w) && w.getLastD false

/-- `len(window) == 10 and all(window)`. -/
def hardLiquidateB (w : List Bool) : Bool :=
  (w.length == 10) && w.all id

/-- The buy-side crossing loop over the ascending sell levels:
`if to_buy > 0 and price <= max_buy_price: quantity = min(to_buy, -volume)`,
emit `(price, quantity)` and decrement `to_buy`. -/
def crossBuy : List (Int × Int) → Int → Int → List (Int × Int) × Int
  | [], toBuy, _ => ([], toBuy)
  | (price, volume) :: rest, toBuy, maxBuy =>
    if 0 < toBuy ∧ price ≤ maxBuy then
      let quantity := min toBuy (-volume)
      let r := crossBuy rest (toBuy - quantity) maxBuy
      ((price, quantity) :: r.1, r.2)
    else crossBuy rest toBuy maxBuy

/-- The sell-side crossing loop over the descending buy levels:
`if to_sell > 0 and price >= min_sell_price: quantity = min(to_sell, volume)`,
emit `(price, -quantity)` and decrement `to_sell`. -/
def crossSell : List (Int × Int) → Int → Int → List (Int × Int) × Int
  | [], toSell, _ => ([], toSell)
  | (price, volume) :: rest, toSell, minSell =>
    if 0 < toSell ∧ minSell ≤ price then
      let quantity := min toSell volume
      let r := crossSell rest (toSell - quantity) minSell
      ((price, -quantity) :: r.1, r.2)
    else crossSell rest toSell minSell

/-- The buy half of the emission sequence: the crossing loop over the
ascending sell levels, then the hard- and soft-liquidation orders
(`quantity = to_buy // 2` each), then the resting remainder at
`min(max_buy_price, popular_buy_price + 1)`.  Returns the emitted orders
and the final `to_buy`. -/
def buySideOrders (sellOrders : List (Int × Int))
    (toBuy0 maxBuy trueValue popularBuyPrice : Int) (hard soft : Bool) :
    List (Int × Int) × Int :=
  let c := crossBuy sellOrders toBuy0 maxBuy
  let h := if 0 < c.2 ∧ hard = true then
      ([(trueValue, c.2 / 2)], c.2 - c.2 / 2) else ([], c.2)
  let s := if 0 < h.2 ∧ soft = true then
      ([(trueValue - 2, h.2 / 2)], h.2 - h.2 / 2) else ([], h.2)
  let r := if 0 < s.2 then [(min maxBuy (popularBuyPrice + 1), s.2)] else []
  (c.1 ++ h.1 ++ s.1 ++ r, s.2)

/-- The sell half: the crossing loop over the descending buy levels, the
liquidation orders with negated quantities, and the resting remainder at
`max(min_sell_price, popular_sell_price - 1)`. -/
def sellSideOrders (buyOrders : List (Int × Int))
    (toSell0 minSell trueValue popularSellPrice : Int) (hard soft : Bool) :
    List (Int × Int) × Int :=
  let c := crossSell buyOrders toSell0 minSell
  let h := if 0 < c.2 ∧ hard = true then
      ([(trueValue, -(c.2 / 2))], c.2 - c.2 / 2) else ([], c.2)
  let s := if 0 < h.2 ∧ soft = true then
      ([(trueValue + 2, -(h.2 / 2))], h.2 - h.2 / 2) else ([], h.2)
  let r := if 0 < s.2 then [(max minSell (popularSellPrice - 1), -s.2)] else []
  (c.1 ++ h.1 ++ s.1 ++ r, s.2)

/-- All values `market_making_strategy` computes: the fair value, skewed
price bounds, the updated window, the liquidation flags, the residual
capacities after the crossing loops, and the emitted orders (price,
signed quantity), in emission order. -/
structure QuoteTrace where
  trueValue : Int
  maxBuy : Int
  minSell : Int
  window' : List Bool
  hard : Bool
  soft : Bool
  toBuyAfterCross : Int
  toSellAfterCross : Int
  orders : List (Int × Int)

/-- `market_making_strategy(symbol, state)`, as a pure function of the raw
book sides, the current position, the position limit and the incoming
window.  `position > position_limit * 0.5` is the exact integer comparison
`limit < 2 * position` (the float product is exact), and
`abs(position) == position_limit` is `|position| = limit`. -/
def quoteFull (buyRaw sellRaw : List (Int × Int)) (position limit : Int)
    (window : List Bool) : QuoteTrace :=
  let buyOrders := sortDescP buyRaw
  let sellOrders := sortAscP sellRaw
  let popularBuyPrice := (pyMaxBySnd buyOrders).1
  let popularSellPrice := (pyMinBySnd sellOrders).1
  let trueValue := pyRoundHalf (popularBuyPrice + popularSellPrice)
  let toBuy0 := limit - position
  let toSell0 := limit + position
  let window' := pushWindow window (decide (|position| = limit))
  let soft := softLiquidateB window'
  let hard := hardLiquidateB window'
  let maxBuy := if limit < 2 * position then trueValue - 1 else trueValue
  let minSell := if 2 * position < -limit then trueValue + 1 else trueValue
  let bres := buySideOrders sellOrders toBuy0 maxBuy trueValue popularBuyPrice hard soft
  let sres := sellSideOrders buyOrders toSell0 minSell trueValue popularSellPrice hard soft
  { trueValue := trueValue, maxBuy := maxBuy, minSell := minSell,
    window' := window', hard := hard, soft := soft,
    toBuyAfterCross := (crossBuy sellOrders toBuy0 maxBuy).2,
    toSellAfterCross := (crossSell buyOrders toSell0 minSell).2,
    orders := bres.1 ++ sres.1 }

/-- The order list returned by `market_making_strategy`. -/
def quoteOrders (buyRaw sellRaw : List (Int × Int)) (position limit : Int)
    (window : List Bool) : List (Int × Int) :=
  (quoteFull buyRaw sellRaw position limit window).orders

/-- The sum of the positive quantities of a list of orders (each quantity
contributes `max q 0`, i.e. exactly the positive ones count). -/
def posSum (l : List (Int × Int)) : Int := (l.map (fun o => max o.2 0)).sum

/-- The sum of the magnitudes of the negative quantities of a list of
orders. -/
def negMag (l : List (Int × Int)) : Int := (l.map (fun o => max (-o.2) 0)).sum

/-! ## The persisted state (`Trader.__init__`, restore, snapshot) -/

/-- The trader's cross-cycle state: `self.position_limits` and
`self.windows` (symbol-keyed dicts). -/
structure Store where
  positionLimits : List (String × Int)
  windows : List (String × List Bool)
deriving Repr, DecidableEq

/-- The state right after `Trader.__init__`: both maps empty. -/
def defaultStore : Store := ⟨[], []⟩

/-- A decoded JSON value (`json.loads` output). -/
inductive JVal where
  | jnull
  | jbool (b : Bool)
  | jnum (n : Int)
  | jstr (s : String)
  | jarr (elems : List JVal)
  | jobj (fields : List (String × JVal))
deriving Repr

/-- The parse outcome of the persisted `traderData` string: the empty
string (restore skipped), a `json.JSONDecodeError` (caught, ignored), or a
decoded value. -/
inductive Blob where
  | emptyStr
  | decodeError
  | val (v : JVal)
deriving Repr

/-- Python `x == "k"` for a decoded JSON value `x`: only an equal string
compares equal. -/
def isStrVal (v : JVal) (k : String) : Bool :=
  match v with
  | .jstr t => t == k
  | _ => false

/-- Python substring test `k in s`. -/
def substrPy (k s : String) : Bool := (s.splitOn k).length > 1

/-- Python `k in v` for a decoded JSON value: dict key membership, list
element membership, substring test on strings; `in` on a number, boolean
or `None` raises `TypeError` (which `run` does not catch). -/
def hasKeyPy (v : JVal) (k : String) : Except String Bool :=
  match v with
  | .jobj fields => .ok (fields.any (fun p => p.1 == k))
  | .jarr elems => .ok (elems.any (fun e => isStrVal e k))
  | .jstr s => .ok (substrPy k s)
  | _ => .error "TypeError: argument is not iterable"

/-- Python `v[k]` for a string key `k`: only dicts support it; indexing a
list or string with a string key raises `TypeError`. -/
def getItemPy (v : JVal) (k : String) : Except String JVal :=
  match v with
  | .jobj fields =>
    match fields.find? (fun p => p.1 == k) with
    | some p => .ok p.2
    | none => .error "KeyError"
  | _ => .error "TypeError: indices must be integers"

/-- A window entry read back from the blob.  `snapshot` only ever writes
booleans, so the model restricts restored window entries to JSON booleans
(anything else is rejected as an error). -/
def asBool : JVal → Except String Bool
  | .jbool b => .ok b
  | _ => .error "model restriction: window entries are booleans"

/-- Decode a list of window entries, left to right. -/
def asBoolList : List JVal → Except String (List Bool)
  | [] => .ok []
  | v :: rest => do
    let b ← asBool v
    let bs ← asBoolList rest
    pure (b :: bs)

/-- `deque(window_data, maxlen=10)` for a decoded windows value: the value
must be a list (of booleans, see `asBool`); the deque keeps the last 10
entries. -/
def asWindow (v : JVal) : Except String (List Bool) :=
  match v with
  | .jarr es => do
    let bs ← asBoolList es
    pure (bs.drop (bs.length - 10))
  | _ => .error "TypeError: object is not iterable"

/-- Decode the fields of the `windows` dict, left to right. -/
def decodeWindowFields : List (String × JVal) → Except String (List (String × List Bool))
  | [] => .ok []
  | p :: rest => do
    let w ← asWindow p.2
    let ws ← decodeWindowFields rest
    pure ((p.1, w) :: ws)

/-- `trader_data["windows"].items()` with each value fed to
`deque(·, maxlen=10)`: the field must be a dict, else `.items()` raises
`AttributeError`. -/
def decodeWindows (v : JVal) : Except String (List (String × List Bool)) :=
  match v with
  | .jobj fields => decodeWindowFields fields
  | _ => .error "AttributeError: no attribute items"

/-- Decode the fields of the `position_limits` dict, left to right. -/
def decodeLimitFields : List (String × JVal) → Except String (List (String × Int))
  | [] => .ok []
  | p :: rest =>
    match p.2 with
    | .jnum n => do
      let ls ← decodeLimitFields rest
      pure ((p.1, n) :: ls)
    | _ => .error "model restriction: limits are integers"

/-- `self.position_limits = trader_data["position_limits"]`.  The program
assigns the decoded value wholesale; the model restricts it to a dict of
integers (the only shape `snapshot` produces — any other shape would make
every later cycle fail on `product not in self.position_limits`). -/
def decodeLimits (v : JVal) : Except String (List (String × Int)) :=
  match v with
  | .jobj fields => decodeLimitFields fields
  | _ => .error "model restriction: limits are a dict"

/-- `if "windows" in trader_data: for symbol, window_data in
trader_data["windows"].items(): self.windows[symbol] = deque(window_data,
maxlen=10)` — each restored window overwrites that symbol's entry. -/
def restoreWindows (v : JVal) (store : Store) : Except String Store := do
  let hw ← hasKeyPy v "windows"
  if hw then do
    let wv ← getItemPy v "windows"
    let ws ← decodeWindows wv
    pure { store with
           windows := ws.foldl (fun acc p => aset acc p.1 p.2) store.windows }
  else pure store

/-- `if "position_limits" in trader_data: self.position_limits =
trader_data["position_limits"]` — a present field replaces the whole
map. -/
def restoreLimits (v : JVal) (store : Store) : Except String Store := do
  let hl ← hasKeyPy v "position_limits"
  if hl then do
    let lv ← getItemPy v "position_limits"
    let ls ← decodeLimits lv
    pure { store with positionLimits := ls }
  else pure store

/-- The restore block at the top of `run`: skip on an empty string, ignore
a `json.JSONDecodeError`, otherwise read the optional `windows` and
`position_limits` fields in that order.  Python errors other than decode
errors propagate as `Except.error`. -/
def restore (b : Blob) (store : Store) : Except String Store :=
  match b with
  | .emptyStr => .ok store
  | .decodeError => .ok store
  | .val v => do
    let store1 ← restoreWindows v store
    restoreLimits v store1

/-- The snapshot block at the bottom of `run`:
`json.dumps({"windows": {s: list(w)}, "position_limits": {...}})`,
modelled as the decoded value it will parse back to. -/
def snapshot (store : Store) : Blob :=
  .val (.jobj
    [("windows", .jobj (store.windows.map (fun p => (p.1, .jarr (p.2.map .jbool))))),
     ("position_limits", .jobj (store.positionLimits.map (fun p => (p.1, .jnum p.2))))])

/-! ## The per-cycle product loop (`run`) -/

/-- One instrument's slice of the incoming `TradingState`: its symbol and
the two sides of its order book. -/
structure ProductInput where
  symbol : String
  buys : List (Int × Int)
  sells : List (Int × Int)
deriving Repr, DecidableEq

/-- The body of `run`'s product loop for one product: if both book sides
are non-empty, default-initialise the limit (20) and window (empty) when
absent, run the quoting engine, and write back the mutated window;
otherwise emit an empty order list and leave the store untouched. -/
def runProduct (store : Store) (positions : List (String × Int))
    (p : ProductInput) : List (Int × Int) × Store :=
  if p.buys.length > 0 ∧ p.sells.length > 0 then
    let limits := match alookup store.positionLimits p.symbol with
      | some _ => store.positionLimits
      | none => aset store.positionLimits p.symbol 20
    let windows := match alookup store.windows p.symbol with
      | some _ => store.windows
      | none => aset store.windows p.symbol []
    let limit := (alookup limits p.symbol).getD 20
    let window := (alookup windows p.symbol).getD []
    let position := (alookup positions p.symbol).getD 0
    let t := quoteFull p.buys p.sells position limit window
    (t.orders, ⟨limits, aset windows p.symbol t.window'⟩)
  else ([], store)

/-- `for product in state.order_depths: ...` — fold `runProduct` over the
products, accumulating the per-symbol result dict. -/
def runLoop (positions : List (String × Int))
    (acc : List (String × List (Int × Int)) × Store) :
    List ProductInput → List (String × List (Int × Int)) × Store
  | [] => acc
  | p :: rest =>
    let r := runProduct acc.2 positions p
    runLoop positions (aset acc.1 p.symbol r.1, r.2) rest

/-- One full decision cycle's external input: the persisted blob, the
order books, and the position dict. -/
structure CycleInput where
  blob : Blob
  products : List ProductInput
  positions : List (String × Int)

/-- `Trader.run`: restore, loop over the products, snapshot.  Returns the
per-symbol orders, the mutated store, and the new persisted blob. -/
def runCycle (store : Store) (inp : CycleInput) :
    Except String (List (String × List (Int × Int)) × Store × Blob) := do
  let store1 ← restore inp.blob store
  let r := runLoop inp.positions ([], store1) inp.products
  pure (r.1, r.2, snapshot r.2)

/-- A sequence of decision cycles threading the store. -/
def runCycles : Store → List CycleInput → Except String Store
  | store, [] => .ok store
  | store, inp :: rest => do
    let r ← runCycle store inp
    runCycles r.2.1 rest

/-! ## Helper lemmas -/

theorem alookup_aset_self {α : Type} (m : List (String × α)) (k : String) (v : α) :
    alookup (aset m k v) k = some v := by
  induction m with
  | nil => simp [aset, alookup]
  | cons p rest ih =>
    by_cases h : p.1 = k
    · simp [aset, h, alookup]
    · simp [aset, h, alookup, ih]

theorem alookup_aset_ne {α : Type} (m : List (String × α)) (k j : String) (v : α)
    (h : j ≠ k) : alookup (aset m k v) j = alookup m j := by
  have hkj : ¬ (k = j) := fun hh => h hh.symm
  induction m with
  | nil => simp [aset, alookup, hkj]
  | cons p rest ih =>
    by_cases hp : p.1 = k
    · subst hp
      simp [aset, alookup, hkj]
    · simp [aset, hp, alookup, ih]

theorem posSum_nil : posSum [] = 0 := rfl

theorem posSum_cons (o : Int × Int) (l : List (Int × Int)) :
    posSum (o :: l) = max o.2 0 + posSum l := by
  simp [posSum]

theorem posSum_append (l₁ l₂ : List (Int × Int)) :
    posSum (l₁ ++ l₂) = posSum l₁ + posSum l₂ := by
  simp [posSum]

theorem negMag_nil : negMag [] = 0 := rfl

theorem negMag_cons (o : Int × Int) (l : List (Int × Int)) :
    negMag (o :: l) = max (-o.2) 0 + negMag l := by
  simp [negMag]

theorem negMag_append (l₁ l₂ : List (Int × Int)) :
    negMag (l₁ ++ l₂) = negMag l₁ + negMag l₂ := by
  simp [negMag]

theorem posSum_eq_zero_of_nonpos (l : List (Int × Int))
    (h : ∀ o ∈ l, o.2 ≤ 0) : posSum l = 0 := by
  induction l with
  | nil => rfl
  | cons o rest ih =>
    rw [posSum_cons, ih (fun x hx => h x (List.mem_cons_of_mem o hx))]
    have := h o (List.mem_cons_self o rest)
    omega

theorem negMag_eq_zero_of_nonneg (l : List (Int × Int))
    (h : ∀ o ∈ l, 0 ≤ o.2) : negMag l = 0 := by
  induction l with
  | nil => rfl
  | cons o rest ih =>
    rw [negMag_cons, ih (fun x hx => h x (List.mem_cons_of_mem o hx))]
    have := h o (List.mem_cons_self o rest)
    omega

theorem mem_sortAscP {x : Int × Int} {l : List (Int × Int)} :
    x ∈ sortAscP l ↔ x ∈ l :=
  (List.perm_insertionSort _ l).mem_iff

theorem mem_sortDescP {x : Int × Int} {l : List (Int × Int)} :
    x ∈ sortDescP l ↔ x ∈ l :=
  (List.perm_insertionSort _ l).mem_iff

theorem crossBuy_of_nonpos (l : List (Int × Int)) (toBuy maxBuy : Int)
    (h : toBuy ≤ 0) : crossBuy l toBuy maxBuy = ([], toBuy) := by
  induction l with
  | nil => rfl
  | cons p rest ih =>
    obtain ⟨price, volume⟩ := p
    simp only [crossBuy]
    rw [if_neg (by rintro ⟨h1, _⟩; omega)]
    exact ih

theorem crossSell_of_nonpos (l : List (Int × Int)) (toSell minSell : Int)
    (h : toSell ≤ 0) : crossSell l toSell minSell = ([], toSell) := by
  induction l with
  | nil => rfl
  | cons p rest ih =>
    obtain ⟨price, volume⟩ := p
    simp only [crossSell]
    rw [if_neg (by rintro ⟨h1, _⟩; omega)]
    exact ih

theorem crossBuy_spec (l : List (Int × Int)) :
    ∀ (toBuy maxBuy : Int), (∀ x ∈ l, x.2 < 0) →
    posSum (crossBuy l toBuy maxBuy).1 = toBuy - (crossBuy l toBuy maxBuy).2
    ∧ (crossBuy l toBuy maxBuy).2 ≤ toBuy
    ∧ (0 ≤ toBuy → 0 ≤ (crossBuy l toBuy maxBuy).2)
    ∧ (∀ o ∈ (crossBuy l toBuy maxBuy).1, 0 ≤ o.2) := by
  induction l with
  | nil =>
    intro toBuy maxBuy _
    refine ⟨by simp [crossBuy, posSum_nil], le_refl _, fun h => h, by simp [crossBuy]⟩
  | cons p rest ih =>
    intro toBuy maxBuy h
    obtain ⟨price, volume⟩ := p
    have hvol : volume < 0 := h (price, volume) (List.mem_cons_self _ _)
    have hrest : ∀ x ∈ rest, x.2 < 0 := fun x hx => h x (List.mem_cons_of_mem _ hx)
    simp only [crossBuy]
    by_cases hc : 0 < toBuy ∧ price ≤ maxBuy
    · rw [if_pos hc]
      have hq : 0 < min toBuy (-volume) := by omega
      have hq' : min toBuy (-volume) ≤ toBuy := min_le_left _ _
      obtain ⟨ih1, ih2, ih3, ih4⟩ := ih (toBuy - min toBuy (-volume)) maxBuy hrest
      refine ⟨?_, by omega, fun _ => ih3 (by omega), ?_⟩
      · rw [posSum_cons]
        simp only at ih1 ⊢
        omega
      · intro o ho
        rcases List.mem_cons.1 ho with h1 | h1
        · rw [h1]; simp; omega
        · exact ih4 o h1
    · rw [if_neg hc]
      exact ih toBuy maxBuy hrest

theorem crossSell_spec (l : List (Int × Int)) :
    ∀ (toSell minSell : Int), (∀ x ∈ l, 0 < x.2) →
    negMag (crossSell l toSell minSell).1 = toSell - (crossSell l toSell minSell).2
    ∧ (crossSell l toSell minSell).2 ≤ toSell
    ∧ (0 ≤ toSell → 0 ≤ (crossSell l toSell minSell).2)
    ∧ (∀ o ∈ (crossSell l toSell minSell).1, o.2 ≤ 0) := by
  induction l with
  | nil =>
    intro toSell minSell _
    refine ⟨by simp [crossSell, negMag_nil], le_refl _, fun h => h, by simp [crossSell]⟩
  | cons p rest ih =>
    intro toSell minSell h
    obtain ⟨price, volume⟩ := p
    have hvol : 0 < volume := h (price, volume) (List.mem_cons_self _ _)
    have hrest : ∀ x ∈ rest, 0 < x.2 := fun x hx => h x (List.mem_cons_of_mem _ hx)
    simp only [crossSell]
    by_cases hc : 0 < toSell ∧ minSell ≤ price
    · rw [if_pos hc]
      have hq : 0 < min toSell volume := by omega
      have hq' : min toSell volume ≤ toSell := min_le_left _ _
      obtain ⟨ih1, ih2, ih3, ih4⟩ := ih (toSell - min toSell volume) minSell hrest
      refine ⟨?_, by omega, fun _ => ih3 (by omega), ?_⟩
      · rw [negMag_cons]
        simp only at ih1 ⊢
        omega
      · intro o ho
        rcases List.mem_cons.1 ho with h1 | h1
        · rw [h1]; simp; omega
        · exact ih4 o h1
    · rw [if_neg hc]
      exact ih toSell minSell hrest

theorem buySide_spec (sellOrders : List (Int × Int))
    (toBuy0 maxBuy tv pb : Int) (hard soft : Bool)
    (hneg : ∀ x ∈ sellOrders, x.2 < 0) :
    posSum (buySideOrders sellOrders toBuy0 maxBuy tv pb hard soft).1 ≤ max toBuy0 0
    ∧ (∀ o ∈ (buySideOrders sellOrders toBuy0 maxBuy tv pb hard soft).1, 0 ≤ o.2)
    ∧ (toBuy0 ≤ 0 → (buySideOrders sellOrders toBuy0 maxBuy tv pb hard soft).1 = []) := by
  by_cases h0 : toBuy0 ≤ 0
  · have hc := crossBuy_of_nonpos sellOrders toBuy0 maxBuy h0
    simp only [buySideOrders, hc]
    rw [if_neg (by rintro ⟨h1, _⟩; omega)]
    rw [if_neg (by rintro ⟨h1, _⟩; omega)]
    rw [if_neg (by omega)]
    simp [posSum_nil]
  · obtain ⟨hc1, hc2, hc3, hc4⟩ := crossBuy_spec sellOrders toBuy0 maxBuy hneg
    have hcnn : 0 ≤ (crossBuy sellOrders toBuy0 maxBuy).2 := hc3 (by omega)
    simp only [buySideOrders]
    constructor
    · -- the positive-quantity sum is bounded by the entry capacity
      split_ifs with h1 h2 h3 h2 h3 h3 <;>
        simp only [posSum_append, posSum_cons, posSum_nil] <;>
        omega
    · constructor
      · intro o ho
        rcases List.mem_append.1 ho with ho | ho
        · rcases List.mem_append.1 ho with ho | ho
          · rcases List.mem_append.1 ho with ho | ho
            · exact hc4 o ho
            · revert ho
              split_ifs with h1 <;> intro ho
              · rcases List.mem_singleton.1 ho with rfl
                simp only
                omega
              · simp at ho
          · revert ho
            split_ifs with h1 h2 h2 <;> intro ho <;>
              first
                | (rcases List.mem_singleton.1 ho with rfl; simp only; omega)
                | simp at ho
        · revert ho
          split_ifs with h1 h2 h3 h2 h3 h3 <;> intro ho <;>
            first
              | (rcases List.mem_singleton.1 ho with rfl; simp only; omega)
              | simp at ho
      · intro h
        omega

theorem sellSide_spec (buyOrders : List (Int × Int))
    (toSell0 minSell tv ps : Int) (hard soft : Bool)
    (hpos : ∀ x ∈ buyOrders, 0 < x.2) :
    negMag (sellSideOrders buyOrders toSell0 minSell tv ps hard soft).1 ≤ max toSell0 0
    ∧ (∀ o ∈ (sellSideOrders buyOrders toSell0 minSell tv ps hard soft).1, o.2 ≤ 0)
    ∧ (toSell0 ≤ 0 → (sellSideOrders buyOrders toSell0 minSell tv ps hard soft).1 = []) := by
  by_cases h0 : toSell0 ≤ 0
  · have hc := crossSell_of_nonpos buyOrders toSell0 minSell h0
    simp only [sellSideOrders, hc]
    rw [if_neg (by rintro ⟨h1, _⟩; omega)]
    rw [if_neg (by rintro ⟨h1, _⟩; omega)]
    rw [if_neg (by omega)]
    simp [negMag_nil]
  · obtain ⟨hc1, hc2, hc3, hc4⟩ := crossSell_spec buyOrders toSell0 minSell hpos
    have hcnn : 0 ≤ (crossSell buyOrders toSell0 minSell).2 := hc3 (by omega)
    simp only [sellSideOrders]
    constructor
    · -- the negative-quantity magnitude sum is bounded by the entry capacity
      split_ifs with h1 h2 h3 h2 h3 h3 <;>
        simp only [negMag_append, negMag_cons, negMag_nil] <;>
        omega
    · constructor
      · intro o ho
        rcases List.mem_append.1 ho with ho | ho
        · rcases List.mem_append.1 ho with ho | ho
          · rcases List.mem_append.1 ho with ho | ho
            · exact hc4 o ho
            · revert ho
              split_ifs with h1 <;> intro ho
              · rcases List.mem_singleton.1 ho with rfl
                simp only
                omega
              · simp at ho
          · revert ho
            split_ifs with h1 h2 h2 <;> intro ho <;>
              first
                | (rcases List.mem_singleton.1 ho with rfl; simp only; omega)
                | simp at ho
        · revert ho
          split_ifs with h1 h2 h3 h2 h3 h3 <;> intro ho <;>
            first
              | (rcases List.mem_singleton.1 ho with rfl; simp only; omega)
              | simp at ho
      · intro h
        omega
theorem quoteFull_trueValue (b s : List (Int × Int)) (p l : Int) (w : List Bool) :
    (quoteFull b s p l w).trueValue
      = pyRoundHalf ((pyMaxBySnd (sortDescP b)).1 + (pyMinBySnd (sortAscP s)).1) := rfl

theorem quoteFull_window' (b s : List (Int × Int)) (p l : Int) (w : List Bool) :
    (quoteFull b s p l w).window' = pushWindow w (decide (|p| = l)) := rfl

theorem quoteFull_hard (b s : List (Int × Int)) (p l : Int) (w : List Bool) :
    (quoteFull b s p l w).hard = hardLiquidateB (pushWindow w (decide (|p| = l))) := rfl

theorem quoteFull_soft (b s : List (Int × Int)) (p l : Int) (w : List Bool) :
    (quoteFull b s p l w).soft = softLiquidateB (pushWindow w (decide (|p| = l))) := rfl

theorem quoteFull_maxBuy (b s : List (Int × Int)) (p l : Int) (w : List Bool) :
    (quoteFull b s p l w).maxBuy
      = (if l < 2 * p then (quoteFull b s p l w).trueValue - 1
         else (quoteFull b s p l w).trueValue) := rfl

theorem quoteFull_minSell (b s : List (Int × Int)) (p l : Int) (w : List Bool) :
    (quoteFull b s p l w).minSell
      = (if 2 * p < -l then (quoteFull b s p l w).trueValue + 1
         else (quoteFull b s p l w).trueValue) := rfl

theorem quoteFull_toBuyAfterCross (b s : List (Int × Int)) (p l : Int) (w : List Bool) :
    (quoteFull b s p l w).toBuyAfterCross
      = (crossBuy (sortAscP s) (l - p) (quoteFull b s p l w).maxBuy).2 := rfl

theorem quoteFull_toSellAfterCross (b s : List (Int × Int)) (p l : Int) (w : List Bool) :
    (quoteFull b s p l w).toSellAfterCross
      = (crossSell (sortDescP b) (l + p) (quoteFull b s p l w).minSell).2 := rfl

theorem quoteFull_orders (b s : List (Int × Int)) (p l : Int) (w : List Bool) :
    (quoteFull b s p l w).orders
      = (buySideOrders (sortAscP s) (l - p) (quoteFull b s p l w).maxBuy
           (quoteFull b s p l w).trueValue (pyMaxBySnd (sortDescP b)).1
           (quoteFull b s p l w).hard (quoteFull b s p l w).soft).1
        ++ (sellSideOrders (sortDescP b) (l + p) (quoteFull b s p l w).minSell
           (quoteFull b s p l w).trueValue (pyMinBySnd (sortAscP s)).1
           (quoteFull b s p l w).hard (quoteFull b s p l w).soft).1 := rfl

/-! ## Claim C1 -/

/-- Claim C1, counterexample to the literal statement: at the two-sided
valid book buys `{10: 5}`, sells `{12: -4}` with position 21 and limit 20,
`room_to_buy = -1` at entry; no positive-quantity order is emitted, so the
sum of positive quantities is 0, which exceeds `room_to_buy`.  The literal
"the sum of positive quantities never exceeds room_to_buy" therefore fails
whenever the position is already past the limit. -/
theorem claim_C1_counterexample :
    ([((10:Int),(5:Int))] ≠ []) ∧ ([((12:Int),(-4:Int))] ≠ [])
    ∧ (∀ x ∈ [((10:Int),(5:Int))], 0 < x.2)
    ∧ (∀ x ∈ [((12:Int),(-4:Int))], x.2 < 0)
    ∧ posSum (quoteOrders [(10,5)] [(12,-4)] 21 20 []) = 0
    ∧ ¬ (posSum (quoteOrders [(10,5)] [(12,-4)] 21 20 []) ≤ 20 - 21) := by
  decide

/-- Claim C1 (amended): for every call to the quoting function on a
two-sided book with valid volume signs, the sum of the positive order
quantities never exceeds `max(room_to_buy, 0)` with
`room_to_buy = limit - position` computed at entry, and the sum of the
magnitudes of the negative order quantities never exceeds
`max(room_to_sell, 0)` with `room_to_sell = limit + position`; when
`room_to_buy ≤ 0` no positive-quantity order is emitted, and when
`room_to_sell ≤ 0` no negative-quantity order is emitted. -/
theorem claim_C1_amended (buyRaw sellRaw : List (Int × Int))
    (position limit : Int) (window : List Bool)
    (hb : buyRaw ≠ []) (hs : sellRaw ≠ [])
    (hbpos : ∀ x ∈ buyRaw, 0 < x.2) (hsneg : ∀ x ∈ sellRaw, x.2 < 0) :
    posSum (quoteOrders buyRaw sellRaw position limit window) ≤ max (limit - position) 0
    ∧ negMag (quoteOrders buyRaw sellRaw position limit window) ≤ max (limit + position) 0
    ∧ (limit - position ≤ 0 →
        ∀ o ∈ quoteOrders buyRaw sellRaw position limit window, o.2 ≤ 0)
    ∧ (limit + position ≤ 0 →
        ∀ o ∈ quoteOrders buyRaw sellRaw position limit window, 0 ≤ o.2) := by
  have hsneg' : ∀ x ∈ sortAscP sellRaw, x.2 < 0 :=
    fun x hx => hsneg x (mem_sortAscP.1 hx)
  have hbpos' : ∀ x ∈ sortDescP buyRaw, 0 < x.2 :=
    fun x hx => hbpos x (mem_sortDescP.1 hx)
  obtain ⟨hB1, hB2, hB3⟩ := buySide_spec (sortAscP sellRaw) (limit - position)
    ((quoteFull buyRaw sellRaw position limit window).maxBuy)
    ((quoteFull buyRaw sellRaw position limit window).trueValue)
    ((pyMaxBySnd (sortDescP buyRaw)).1)
    ((quoteFull buyRaw sellRaw position limit window).hard)
    ((quoteFull buyRaw sellRaw position limit window).soft) hsneg'
  obtain ⟨hS1, hS2, hS3⟩ := sellSide_spec (sortDescP buyRaw) (limit + position)
    ((quoteFull buyRaw sellRaw position limit window).minSell)
    ((quoteFull buyRaw sellRaw position limit window).trueValue)
    ((pyMinBySnd (sortAscP sellRaw)).1)
    ((quoteFull buyRaw sellRaw position limit window).hard)
    ((quoteFull buyRaw sellRaw position limit window).soft) hbpos'
  unfold quoteOrders
  rw [quoteFull_orders]
  refine ⟨?_, ?_, ?_, ?_⟩
  · rw [posSum_append, posSum_eq_zero_of_nonpos _ hS2]
    omega
  · rw [negMag_append, negMag_eq_zero_of_nonneg _ hB2]
    omega
  · intro h o ho
    rcases List.mem_append.1 ho with ho | ho
    · rw [hB3 h] at ho
      simp at ho
    · exact hS2 o ho
  · intro h o ho
    rcases List.mem_append.1 ho with ho | ho
    · exact hB2 o ho
    · rw [hS3 h] at ho
      simp at ho

/-- Claim C1 witness: the amended bound instantiated at the E2E scenario-A
book with position 0 and limit 20. -/
theorem claim_C1_witness :
    posSum (quoteOrders [(10,5),(9,3)] [(12,-4),(13,-2)] 0 20 []) ≤ max (20 - 0) 0 :=
  (claim_C1_amended [(10,5),(9,3)] [(12,-4),(13,-2)] 0 20 []
    (by decide) (by decide) (by decide) (by decide)).1

/-! ## Claim C2 -/

/-- Helper: `window[-1]` read through `getLastD` is `true` exactly when the
last element exists and is `true`. -/
theorem getLastD_true_iff (l : List Bool) :
    l.getLastD false = true ↔ l.getLast? = some true := by
  rw [List.getLastD_eq_getLast?]
  cases h : l.getLast? <;> simp

/-- Claim C2 (confirmed): in every quoting call the boolean
`abs(position) == limit` is pushed onto the window (evicting the oldest
entry when the window already holds 10) before the liquidation flags are
evaluated; `hard_liquidate` holds iff the pushed window has exactly 10
entries all true, and `soft_liquidate` holds iff it has exactly 10
entries, at least 5 true, with the most recent entry true. -/
theorem claim_C2 (buyRaw sellRaw : List (Int × Int)) (position limit : Int)
    (window : List Bool) (hlen : window.length ≤ 10) :
    (quoteFull buyRaw sellRaw position limit window).window'
      = pushWindow window (decide (|position| = limit))
    ∧ (quoteFull buyRaw sellRaw position limit window).window'
      = (if window.length = 10
         then window.tail ++ [decide (|position| = limit)]
         else window ++ [decide (|position| = limit)])
    ∧ ((quoteFull buyRaw sellRaw position limit window).hard = true ↔
        ((quoteFull buyRaw sellRaw position limit window).window'.length = 10
         ∧ ∀ x ∈ (quoteFull buyRaw sellRaw position limit window).window', x = true))
    ∧ ((quoteFull buyRaw sellRaw position limit window).soft = true ↔
        ((quoteFull buyRaw sellRaw position limit window).window'.length = 10
         ∧ 5 ≤ ((quoteFull buyRaw sellRaw position limit window).window'.filter id).length
         ∧ (quoteFull buyRaw sellRaw position limit window).window'.getLast?
             = some true)) := by
  refine ⟨rfl, ?_, ?_, ?_⟩
  · rw [quoteFull_window']
    by_cases h10 : window.length = 10
    · rw [if_pos h10]
      simp only [pushWindow, List.length_append, List.length_cons, List.length_nil, h10]
      rw [List.drop_append_of_le_length (by omega)]
      norm_num [List.drop_one]
    · rw [if_neg h10]
      simp only [pushWindow, List.length_append, List.length_cons, List.length_nil]
      have : window.length + 1 - 10 = 0 := by omega
      rw [this, List.drop_zero]
  · rw [quoteFull_hard, quoteFull_window']
    simp [hardLiquidateB, List.all_eq_true]
  · rw [quoteFull_soft, quoteFull_window']
    rw [softLiquidateB, Bool.and_eq_true, Bool.and_eq_true, getLastD_true_iff]
    simp [windowSum, List.countP_eq_length_filter, and_assoc]

/-- Claim C2 witness: pushing onto a full window of 10 `true`s at position
0 and limit 20 evicts the oldest entry and appends `false`. -/
theorem claim_C2_witness :
    (List.replicate 10 true).length ≤ 10
    ∧ (quoteFull [(10,5)] [(12,-4)] 0 20 (List.replicate 10 true)).window'
        = List.replicate 9 true ++ [false] := by
  refine ⟨by decide, ?_⟩
  have h := (claim_C2 [(10,5)] [(12,-4)] 0 20 (List.replicate 10 true) (by decide)).2.1
  rw [h]
  decide

/-! ## Claim C5 -/

/-- Claim C5, counterexample to the literal statement: the blob `"42"` is
a well-formed JSON string that is not a record of the expected shape; on
it the restore step raises an uncaught `TypeError` (Python evaluates
`"windows" in 42`, and `run` only catches `json.JSONDecodeError`), so the
cycle does not proceed normally. -/
theorem claim_C5_counterexample :
    restore (Blob.val (JVal.jnum 42)) defaultStore
      = Except.error "TypeError: argument is not iterable" := rfl

/-- Claim C5 (amended): for every persisted blob string that is empty or
fails JSON decoding, the restore step leaves the store exactly as it was
(in particular a default-initialized store stays default-initialized) and
raises no error.  Decodable blobs of the wrong shape are not covered: some
of them raise uncaught errors. -/
theorem claim_C5_amended (st : Store) :
    restore Blob.emptyStr st = Except.ok st
    ∧ restore Blob.decodeError st = Except.ok st :=
  ⟨rfl, rfl⟩

/-! ## Claim C8 -/

/-- Claim C8 (confirmed): on the book buys `{10: 5, 9: 3}`, sells
`{12: -4, 13: -2}` with position 0, limit 20 and an empty window, the fair
value is `round((10 + 12) / 2) = 11`, nothing crosses (both capacities are
still 20 after the crossing loops), and the output is exactly a resting
buy of 20 at price 11 followed by a resting sell of 20 at price 11. -/
theorem claim_C8 :
    (quoteFull [(10,5),(9,3)] [(12,-4),(13,-2)] 0 20 []).trueValue = 11
    ∧ (quoteFull [(10,5),(9,3)] [(12,-4),(13,-2)] 0 20 []).toBuyAfterCross = 20
    ∧ (quoteFull [(10,5),(9,3)] [(12,-4),(13,-2)] 0 20 []).toSellAfterCross = 20
    ∧ (quoteFull [(10,5),(9,3)] [(12,-4),(13,-2)] 0 20 []).orders
        = [(11, 20), (11, -20)] := by
  decide

/-! ## Claims C3 and C10: liquidation-order emission -/

/-- If every sell level is priced strictly above the maximum buy price,
the buy crossing loop emits nothing and leaves the capacity unchanged. -/
theorem crossBuy_no_cross (l : List (Int × Int)) (toBuy maxBuy : Int)
    (h : ∀ x ∈ l, maxBuy < x.1) : crossBuy l toBuy maxBuy = ([], toBuy) := by
  induction l with
  | nil => rfl
  | cons p rest ih =>
    obtain ⟨price, volume⟩ := p
    have hp : maxBuy < price := h (price, volume) (List.mem_cons_self _ _)
    simp only [crossBuy]
    rw [if_neg (by rintro ⟨_, h2⟩; omega)]
    exact ih fun x hx => h x (List.mem_cons_of_mem _ hx)

/-- With hard liquidation set and capacity left after the crossing loop,
the buy side emits the order `(true_value, to_buy // 2)`. -/
theorem buySide_hard_mem (sellOrders : List (Int × Int))
    (toBuy0 maxBuy tv pb : Int) (soft : Bool)
    (hc : 0 < (crossBuy sellOrders toBuy0 maxBuy).2) :
    (tv, (crossBuy sellOrders toBuy0 maxBuy).2 / 2)
      ∈ (buySideOrders sellOrders toBuy0 maxBuy tv pb true soft).1 := by
  simp only [buySideOrders]
  rw [if_pos ⟨hc, trivial⟩]
  simp [List.mem_append]

/-- With soft liquidation set and exactly one unit of capacity left after
the crossing loop, the buy side emits the zero-quantity order
`(true_value - 2, 0)` (whether or not hard liquidation fired first, since
the hard order consumed `1 // 2 = 0`). -/
theorem buySide_soft_mem (sellOrders : List (Int × Int))
    (toBuy0 maxBuy tv pb : Int) (hard : Bool)
    (hc : (crossBuy sellOrders toBuy0 maxBuy).2 = 1) :
    (tv - 2, 0) ∈ (buySideOrders sellOrders toBuy0 maxBuy tv pb hard true).1 := by
  cases hard <;> simp [buySideOrders, hc, List.mem_append]

/-- With hard liquidation set and sell capacity left after the crossing
loop, the sell side emits the order `(true_value, -(to_sell // 2))`. -/
theorem sellSide_hard_mem (buyOrders : List (Int × Int))
    (toSell0 minSell tv ps : Int) (soft : Bool)
    (hc : 0 < (crossSell buyOrders toSell0 minSell).2) :
    (tv, -((crossSell buyOrders toSell0 minSell).2 / 2))
      ∈ (sellSideOrders buyOrders toSell0 minSell tv ps true soft).1 := by
  simp only [sellSideOrders]
  rw [if_pos ⟨hc, trivial⟩]
  simp [List.mem_append]

/-- With soft liquidation set and exactly one unit of sell capacity left
after the crossing loop, the sell side emits the zero-quantity order
`(true_value + 2, 0)`. -/
theorem sellSide_soft_mem (buyOrders : List (Int × Int))
    (toSell0 minSell tv ps : Int) (hard : Bool)
    (hc : (crossSell buyOrders toSell0 minSell).2 = 1) :
    (tv + 2, 0) ∈ (sellSideOrders buyOrders toSell0 minSell tv ps hard true).1 := by
  cases hard <;> simp [sellSideOrders, hc, List.mem_append]

/-- Claim C10 (confirmed): when the remaining buy capacity after the
crossing step equals exactly 1 and a liquidation flag is set, the emitted
list contains a zero-quantity order (`1 // 2 = 0`) at the corresponding
liquidation price — fair value for hard, fair value − 2 for soft; and
symmetrically on the sell side with fair value + 2 for soft. -/
theorem claim_C10 (buyRaw sellRaw : List (Int × Int)) (position limit : Int)
    (window : List Bool) :
    ((quoteFull buyRaw sellRaw position limit window).toBuyAfterCross = 1 →
      ((quoteFull buyRaw sellRaw position limit window).hard = true →
        ((quoteFull buyRaw sellRaw position limit window).trueValue, 0)
          ∈ (quoteFull buyRaw sellRaw position limit window).orders)
      ∧ ((quoteFull buyRaw sellRaw position limit window).soft = true →
        ((quoteFull buyRaw sellRaw position limit window).trueValue - 2, 0)
          ∈ (quoteFull buyRaw sellRaw position limit window).orders))
    ∧ ((quoteFull buyRaw sellRaw position limit window).toSellAfterCross = 1 →
      ((quoteFull buyRaw sellRaw position limit window).hard = true →
        ((quoteFull buyRaw sellRaw position limit window).trueValue, 0)
          ∈ (quoteFull buyRaw sellRaw position limit window).orders)
      ∧ ((quoteFull buyRaw sellRaw position limit window).soft = true →
        ((quoteFull buyRaw sellRaw position limit window).trueValue + 2, 0)
          ∈ (quoteFull buyRaw sellRaw position limit window).orders)) := by
  constructor
  · intro h1
    rw [quoteFull_toBuyAfterCross] at h1
    constructor
    · intro hh
      rw [quoteFull_orders]
      refine List.mem_append.2 (Or.inl ?_)
      rw [hh]
      have hm := buySide_hard_mem (sortAscP sellRaw) (limit - position)
        ((quoteFull buyRaw sellRaw position limit window).maxBuy)
        ((quoteFull buyRaw sellRaw position limit window).trueValue)
        ((pyMaxBySnd (sortDescP buyRaw)).1)
        ((quoteFull buyRaw sellRaw position limit window).soft) (by omega)
      rw [h1] at hm
      norm_num at hm
      exact hm
    · intro hs
      rw [quoteFull_orders]
      refine List.mem_append.2 (Or.inl ?_)
      rw [hs]
      exact buySide_soft_mem (sortAscP sellRaw) (limit - position)
        ((quoteFull buyRaw sellRaw position limit window).maxBuy)
        ((quoteFull buyRaw sellRaw position limit window).trueValue)
        ((pyMaxBySnd (sortDescP buyRaw)).1)
        ((quoteFull buyRaw sellRaw position limit window).hard) h1
  · intro h2
    rw [quoteFull_toSellAfterCross] at h2
    constructor
    · intro hh
      rw [quoteFull_orders]
      refine List.mem_append.2 (Or.inr ?_)
      rw [hh]
      have hm := sellSide_hard_mem (sortDescP buyRaw) (limit + position)
        ((quoteFull buyRaw sellRaw position limit window).minSell)
        ((quoteFull buyRaw sellRaw position limit window).trueValue)
        ((pyMinBySnd (sortAscP sellRaw)).1)
        ((quoteFull buyRaw sellRaw position limit window).soft) (by omega)
      rw [h2] at hm
      norm_num at hm
      exact hm
    · intro hs
      rw [quoteFull_orders]
      refine List.mem_append.2 (Or.inr ?_)
      rw [hs]
      exact sellSide_soft_mem (sortDescP buyRaw) (limit + position)
        ((quoteFull buyRaw sellRaw position limit window).minSell)
        ((quoteFull buyRaw sellRaw position limit window).trueValue)
        ((pyMinBySnd (sortAscP sellRaw)).1)
        ((quoteFull buyRaw sellRaw position limit window).hard) h2

/-- Claim C10 witness: with limit 1, position −1, a window of 9 `true`s
(so the push makes 10 trues: hard and soft both fire), and one crossable
sell unit, exactly one unit of capacity remains after crossing, and the
output contains the zero-quantity orders `(11, 0)` (hard, at fair value)
and `(9, 0)` (soft, at fair value − 2). -/
theorem claim_C10_witness :
    (quoteFull [(10,5)] [(11,-1),(12,-5)] (-1) 1 (List.replicate 9 true)).toBuyAfterCross = 1
    ∧ ((11 : Int), (0 : Int))
        ∈ (quoteFull [(10,5)] [(11,-1),(12,-5)] (-1) 1 (List.replicate 9 true)).orders
    ∧ ((9 : Int), (0 : Int))
        ∈ (quoteFull [(10,5)] [(11,-1),(12,-5)] (-1) 1 (List.replicate 9 true)).orders := by
  have htv : (quoteFull [(10,5)] [(11,-1),(12,-5)] (-1) 1 (List.replicate 9 true)).trueValue
      = 11 := by decide
  have h := (claim_C10 [(10,5)] [(11,-1),(12,-5)] (-1) 1 (List.replicate 9 true)).1
    (by decide)
  refine ⟨by decide, ?_, ?_⟩
  · have hm := h.1 (by decide)
    rwa [htv] at hm
  · have hm := h.2 (by decide)
    rw [htv] at hm
    norm_num at hm
    exact hm

/-- The updated window has at most 10 entries; with a full incoming
window it has exactly 10. -/
theorem pushWindow_length (w : List Bool) (b : Bool) :
    (pushWindow w b).length = min (w.length + 1) 10 := by
  simp only [pushWindow, List.length_drop, List.length_append, List.length_cons,
    List.length_nil]
  omega

/-- Pushing a `true` onto an all-`true` window keeps it all `true`. -/
theorem pushWindow_all_true (w : List Bool) (b : Bool)
    (hw : ∀ x ∈ w, x = true) (hb : b = true) :
    ∀ x ∈ pushWindow w b, x = true := by
  intro x hx
  have hx' : x ∈ w ++ [b] := List.mem_of_mem_drop hx
  rcases List.mem_append.1 hx' with h | h
  · exact hw x h
  · rw [List.mem_singleton.1 h, hb]

/-- Claim C3, counterexample to the literal statement: with a window of 10
`true` entries but position 0 (not pinned), limit 20, buys `{10: 5}` and
sells `{13: -4}` all strictly above the fair value 12, buying capacity 20
remains, yet no buy order at the fair value is emitted: the push of
`abs(position) == limit = False` breaks the all-true window, so
`hard_liquidate` is off and only a resting buy at 11 appears. -/
theorem claim_C3_counterexample :
    (List.replicate 10 true).length = 10
    ∧ (∀ x ∈ List.replicate 10 true, x = true)
    ∧ (quoteFull [(10,5)] [(13,-4)] 0 20 (List.replicate 10 true)).trueValue = 12
    ∧ (∀ x ∈ [((13:Int),(-4:Int))],
        (quoteFull [(10,5)] [(13,-4)] 0 20 (List.replicate 10 true)).trueValue < x.1)
    ∧ (0 : Int) < 20 - 0
    ∧ ∀ o ∈ (quoteFull [(10,5)] [(13,-4)] 0 20 (List.replicate 10 true)).orders,
        ¬(o.1 = 12 ∧ 0 < o.2) := by
  decide

/-- Claim C3 (amended): entering the quoting call with a window of exactly
10 `true` entries, the position pinned at the limit
(`abs(position) == limit`, which the positive buy capacity forces to be
`position = -limit`), positive buy capacity, and every sell level priced
strictly above fair value, the output contains a buy order at exactly the
fair-value price whose quantity is `(limit - position) // 2 > 0`. -/
theorem claim_C3_amended (buyRaw sellRaw : List (Int × Int))
    (position limit : Int) (window : List Bool)
    (hwlen : window.length = 10)
    (hwtrue : ∀ x ∈ window, x = true)
    (hpin : |position| = limit)
    (hroom : 0 < limit - position)
    (hsell : ∀ x ∈ sellRaw,
      (quoteFull buyRaw sellRaw position limit window).trueValue < x.1) :
    ((quoteFull buyRaw sellRaw position limit window).trueValue,
      (limit - position) / 2)
        ∈ (quoteFull buyRaw sellRaw position limit window).orders
    ∧ 0 < (limit - position) / 2 := by
  have hb : decide (|position| = limit) = true := by simpa using hpin
  have hWlen : (pushWindow window (decide (|position| = limit))).length = 10 := by
    rw [pushWindow_length, hwlen]
    decide
  have hWtrue : ∀ x ∈ pushWindow window (decide (|position| = limit)), x = true :=
    pushWindow_all_true window _ hwtrue hb
  have hhard : (quoteFull buyRaw sellRaw position limit window).hard = true := by
    rw [quoteFull_hard]
    simp only [hardLiquidateB, Bool.and_eq_true, beq_iff_eq, List.all_eq_true, id_eq]
    exact ⟨hWlen, fun x hx => hWtrue x hx⟩
  have hmb : (quoteFull buyRaw sellRaw position limit window).maxBuy
      ≤ (quoteFull buyRaw sellRaw position limit window).trueValue := by
    rw [quoteFull_maxBuy]
    split_ifs <;> omega
  have habove : ∀ x ∈ sortAscP sellRaw,
      (quoteFull buyRaw sellRaw position limit window).maxBuy < x.1 := by
    intro x hx
    have := hsell x (mem_sortAscP.1 hx)
    omega
  have hcross := crossBuy_no_cross (sortAscP sellRaw) (limit - position)
    ((quoteFull buyRaw sellRaw position limit window).maxBuy) habove
  have hc2 : (crossBuy (sortAscP sellRaw) (limit - position)
      ((quoteFull buyRaw sellRaw position limit window).maxBuy)).2
      = limit - position := by rw [hcross]
  have hl0 : 0 ≤ limit := hpin ▸ abs_nonneg position
  have hposneg : position = -limit := by
    rcases (abs_eq hl0).1 hpin with h | h
    · omega
    · exact h
  constructor
  · rw [quoteFull_orders]
    refine List.mem_append.2 (Or.inl ?_)
    rw [hhard]
    have hm := buySide_hard_mem (sortAscP sellRaw) (limit - position)
      ((quoteFull buyRaw sellRaw position limit window).maxBuy)
      ((quoteFull buyRaw sellRaw position limit window).trueValue)
      ((pyMaxBySnd (sortDescP buyRaw)).1)
      ((quoteFull buyRaw sellRaw position limit window).soft) (by omega)
    rwa [hc2] at hm
  · omega

/-- Claim C3 witness: limit 20, position −20 (pinned short), a window of
10 `true`s and the single sell level 13 above the fair value 12: the
output contains the hard-liquidation buy `(12, 20)` with
`20 = (20 - (-20)) // 2 > 0`. -/
theorem claim_C3_witness :
    ((12 : Int), (20 : Int))
      ∈ (quoteFull [(10,5)] [(13,-4)] (-20) 20 (List.replicate 10 true)).orders := by
  have htv : (quoteFull [(10,5)] [(13,-4)] (-20) 20 (List.replicate 10 true)).trueValue
      = 12 := by decide
  have h := (claim_C3_amended [(10,5)] [(13,-4)] (-20) 20 (List.replicate 10 true)
    (by decide) (by decide) (by decide) (by decide) (by decide)).1
  rw [htv] at h
  norm_num at h
  exact h

/-! ## Claim C7: fair-value estimation -/

theorem foldl_maxBySnd_mem (xs : List (Int × Int)) :
    ∀ a : Int × Int,
      xs.foldl (fun acc y => if acc.2 < y.2 then y else acc) a = a
      ∨ xs.foldl (fun acc y => if acc.2 < y.2 then y else acc) a ∈ xs := by
  induction xs with
  | nil => intro a; left; rfl
  | cons y ys ih =>
    intro a
    simp only [List.foldl_cons]
    rcases ih (if a.2 < y.2 then y else a) with h | h
    · rw [h]
      by_cases hc : a.2 < y.2
      · right; rw [if_pos hc]; exact List.mem_cons_self _ _
      · left; rw [if_neg hc]
    · right; exact List.mem_cons_of_mem _ h

theorem foldl_maxBySnd_le (xs : List (Int × Int)) :
    ∀ a : Int × Int,
      a.2 ≤ (xs.foldl (fun acc y => if acc.2 < y.2 then y else acc) a).2
      ∧ ∀ x ∈ xs, x.2 ≤ (xs.foldl (fun acc y => if acc.2 < y.2 then y else acc) a).2 := by
  induction xs with
  | nil => intro a; exact ⟨le_refl _, by simp⟩
  | cons y ys ih =>
    intro a
    simp only [List.foldl_cons]
    obtain ⟨ih1, ih2⟩ := ih (if a.2 < y.2 then y else a)
    have hstep : a.2 ≤ (if a.2 < y.2 then y else a).2 ∧ y.2 ≤ (if a.2 < y.2 then y else a).2 := by
      by_cases hc : a.2 < y.2 <;> simp [hc] <;> omega
    refine ⟨le_trans hstep.1 ih1, ?_⟩
    intro x hx
    rcases List.mem_cons.1 hx with rfl | hx
    · exact le_trans hstep.2 ih1
    · exact ih2 x hx

theorem foldl_minBySnd_mem (xs : List (Int × Int)) :
    ∀ a : Int × Int,
      xs.foldl (fun acc y => if y.2 < acc.2 then y else acc) a = a
      ∨ xs.foldl (fun acc y => if y.2 < acc.2 then y else acc) a ∈ xs := by
  induction xs with
  | nil => intro a; left; rfl
  | cons y ys ih =>
    intro a
    simp only [List.foldl_cons]
    rcases ih (if y.2 < a.2 then y else a) with h | h
    · rw [h]
      by_cases hc : y.2 < a.2
      · right; rw [if_pos hc]; exact List.mem_cons_self _ _
      · left; rw [if_neg hc]
    · right; exact List.mem_cons_of_mem _ h

theorem foldl_minBySnd_le (xs : List (Int × Int)) :
    ∀ a : Int × Int,
      (xs.foldl (fun acc y => if y.2 < acc.2 then y else acc) a).2 ≤ a.2
      ∧ ∀ x ∈ xs, (xs.foldl (fun acc y => if y.2 < acc.2 then y else acc) a).2 ≤ x.2 := by
  induction xs with
  | nil => intro a; exact ⟨le_refl _, by simp⟩
  | cons y ys ih =>
    intro a
    simp only [List.foldl_cons]
    obtain ⟨ih1, ih2⟩ := ih (if y.2 < a.2 then y else a)
    have hstep : (if y.2 < a.2 then y else a).2 ≤ a.2 ∧ (if y.2 < a.2 then y else a).2 ≤ y.2 := by
      by_cases hc : y.2 < a.2 <;> simp [hc] <;> omega
    refine ⟨le_trans ih1 hstep.1, ?_⟩
    intro x hx
    rcases List.mem_cons.1 hx with rfl | hx
    · exact le_trans ih1 hstep.2
    · exact ih2 x hx

/-- `max(l, key=...)` returns an element of a non-empty list. -/
theorem pyMaxBySnd_mem (l : List (Int × Int)) (h : l ≠ []) : pyMaxBySnd l ∈ l := by
  rcases l with _ | ⟨x, xs⟩
  · exact absurd rfl h
  · simp only [pyMaxBySnd]
    rcases foldl_maxBySnd_mem xs x with h' | h'
    · rw [h']; exact List.mem_cons_self _ _
    · exact List.mem_cons_of_mem _ h'

/-- The element `max(l, key=...)` returns has a maximal second component. -/
theorem pyMaxBySnd_le (l : List (Int × Int)) : ∀ x ∈ l, x.2 ≤ (pyMaxBySnd l).2 := by
  rcases l with _ | ⟨y, ys⟩
  · simp
  · intro x hx
    simp only [pyMaxBySnd]
    obtain ⟨h1, h2⟩ := foldl_maxBySnd_le ys y
    rcases List.mem_cons.1 hx with rfl | hx
    · exact h1
    · exact h2 x hx

/-- `min(l, key=...)` returns an element of a non-empty list. -/
theorem pyMinBySnd_mem (l : List (Int × Int)) (h : l ≠ []) : pyMinBySnd l ∈ l := by
  rcases l with _ | ⟨x, xs⟩
  · exact absurd rfl h
  · simp only [pyMinBySnd]
    rcases foldl_minBySnd_mem xs x with h' | h'
    · rw [h']; exact List.mem_cons_self _ _
    · exact List.mem_cons_of_mem _ h'

/-- The element `min(l, key=...)` returns has a minimal second component. -/
theorem pyMinBySnd_le (l : List (Int × Int)) : ∀ x ∈ l, (pyMinBySnd l).2 ≤ x.2 := by
  rcases l with _ | ⟨y, ys⟩
  · simp
  · intro x hx
    simp only [pyMinBySnd]
    obtain ⟨h1, h2⟩ := foldl_minBySnd_le ys y
    rcases List.mem_cons.1 hx with rfl | hx
    · exact h1
    · exact h2 x hx

/-- The sorted list is non-empty exactly when the raw list is. -/
theorem sortDescP_ne_nil {l : List (Int × Int)} (h : l ≠ []) : sortDescP l ≠ [] := by
  rcases l with _ | ⟨x, xs⟩
  · exact absurd rfl h
  · intro hnil
    have hx : x ∈ sortDescP (x :: xs) := mem_sortDescP.2 (List.mem_cons_self _ _)
    rw [hnil] at hx
    simp at hx

/-- The sorted list is non-empty exactly when the raw list is. -/
theorem sortAscP_ne_nil {l : List (Int × Int)} (h : l ≠ []) : sortAscP l ≠ [] := by
  rcases l with _ | ⟨x, xs⟩
  · exact absurd rfl h
  · intro hnil
    have hx : x ∈ sortAscP (x :: xs) := mem_sortAscP.2 (List.mem_cons_self _ _)
    rw [hnil] at hx
    simp at hx

/-- Claim C7 (confirmed): for a two-sided book in which the buy price `pb`
with resting quantity `qb` strictly dominates every other buy level's
quantity, and the sell price `ps` with magnitude `-qs` strictly dominates
every other sell level's magnitude (sell quantities being negative), the
fair value is `(pb + ps) / 2` rounded to the nearest integer, with an
exact half rounding to the nearest even integer. -/
theorem claim_C7 (buyRaw sellRaw : List (Int × Int)) (position limit : Int)
    (window : List Bool) (pb qb ps qs : Int)
    (hb : buyRaw ≠ []) (hs : sellRaw ≠ [])
    (hpb : (pb, qb) ∈ buyRaw)
    (hqb : ∀ x ∈ buyRaw, x ≠ (pb, qb) → x.2 < qb)
    (hneg : ∀ x ∈ sellRaw, x.2 < 0)
    (hps : (ps, qs) ∈ sellRaw)
    (hqs : ∀ x ∈ sellRaw, x ≠ (ps, qs) → -x.2 < -qs) :
    (pb + ps) - 1 ≤ 2 * (quoteFull buyRaw sellRaw position limit window).trueValue
    ∧ 2 * (quoteFull buyRaw sellRaw position limit window).trueValue ≤ (pb + ps) + 1
    ∧ ((pb + ps) % 2 = 0 →
        (quoteFull buyRaw sellRaw position limit window).trueValue = (pb + ps) / 2)
    ∧ ((pb + ps) % 2 ≠ 0 →
        (quoteFull buyRaw sellRaw position limit window).trueValue % 2 = 0) := by
  have hmaxeq : pyMaxBySnd (sortDescP buyRaw) = (pb, qb) := by
    have hmem : pyMaxBySnd (sortDescP buyRaw) ∈ buyRaw :=
      mem_sortDescP.1 (pyMaxBySnd_mem _ (sortDescP_ne_nil hb))
    by_cases he : pyMaxBySnd (sortDescP buyRaw) = (pb, qb)
    · exact he
    · have h1 := hqb _ hmem he
      have h2 := pyMaxBySnd_le (sortDescP buyRaw) (pb, qb) (mem_sortDescP.2 hpb)
      simp only at h1 h2
      omega
  have hmineq : pyMinBySnd (sortAscP sellRaw) = (ps, qs) := by
    have hmem : pyMinBySnd (sortAscP sellRaw) ∈ sellRaw :=
      mem_sortAscP.1 (pyMinBySnd_mem _ (sortAscP_ne_nil hs))
    by_cases he : pyMinBySnd (sortAscP sellRaw) = (ps, qs)
    · exact he
    · have h1 := hqs _ hmem he
      have h2 := pyMinBySnd_le (sortAscP sellRaw) (ps, qs) (mem_sortAscP.2 hps)
      simp only at h1 h2
      omega
  rw [quoteFull_trueValue, hmaxeq, hmineq]
  simp only [pyRoundHalf]
  split_ifs <;> refine ⟨by omega, by omega, fun h => by omega, fun h => by omega⟩

/-- Claim C7 witness: in the scenario-A book the unique most-quoted levels
are 10 (size 5) on the buy side and 12 (magnitude 4) on the sell side, and
the fair value 11 is the exact mean (10 + 12) / 2. -/
theorem claim_C7_witness :
    (quoteFull [(10,5),(9,3)] [(12,-4),(13,-2)] 0 20 []).trueValue = (10 + 12) / 2 :=
  (claim_C7 [(10,5),(9,3)] [(12,-4),(13,-2)] 0 20 [] 10 5 12 (-4)
    (by decide) (by decide) (by decide) (by decide) (by decide) (by decide)
    (by decide)).2.2.1 (by decide)

/-! ## Claim C9: one-sided books are skipped -/

/-- A product with an empty or one-sided book is skipped: empty order
list, store untouched. -/
theorem runProduct_onesided (store : Store) (positions : List (String × Int))
    (p : ProductInput) (h : p.buys = [] ∨ p.sells = []) :
    runProduct store positions p = ([], store) := by
  unfold runProduct
  rw [if_neg (by rcases h with h | h <;> simp [h])]

/-- Processing one product only touches that product's store entries. -/
theorem runProduct_preserves (store : Store) (positions : List (String × Int))
    (p : ProductInput) (j : String) (hne : j ≠ p.symbol) :
    alookup (runProduct store positions p).2.windows j = alookup store.windows j
    ∧ alookup (runProduct store positions p).2.positionLimits j
        = alookup store.positionLimits j := by
  unfold runProduct
  split_ifs with hc
  · constructor
    · rcases hw : alookup store.windows p.symbol with _ | w <;>
        simp [hw, alookup_aset_ne _ _ _ _ hne]
    · rcases hl : alookup store.positionLimits p.symbol with _ | v <;>
        simp [hl, alookup_aset_ne _ _ _ _ hne]
  · exact ⟨rfl, rfl⟩

/-- The loop leaves result entries and store entries of symbols it never
visits unchanged. -/
theorem runLoop_untouched (positions : List (String × Int)) (s : String) :
    ∀ (products : List ProductInput)
      (acc : List (String × List (Int × Int))) (store : Store),
      (∀ p ∈ products, p.symbol ≠ s) →
      alookup (runLoop positions (acc, store) products).1 s = alookup acc s
      ∧ alookup (runLoop positions (acc, store) products).2.windows s
          = alookup store.windows s
      ∧ alookup (runLoop positions (acc, store) products).2.positionLimits s
          = alookup store.positionLimits s := by
  intro products
  induction products with
  | nil => intro acc store _; exact ⟨rfl, rfl, rfl⟩
  | cons q rest ih =>
    intro acc store hnot
    have hq : q.symbol ≠ s := hnot q (List.mem_cons_self _ _)
    have hrest : ∀ p ∈ rest, p.symbol ≠ s :=
      fun p hp => hnot p (List.mem_cons_of_mem _ hp)
    simp only [runLoop]
    obtain ⟨ih1, ih2, ih3⟩ := ih (aset acc q.symbol (runProduct store positions q).1)
      (runProduct store positions q).2 hrest
    obtain ⟨hp1, hp2⟩ := runProduct_preserves store positions q s (Ne.symm hq)
    refine ⟨?_, ?_, ?_⟩
    · rw [ih1, alookup_aset_ne _ _ _ _ (Ne.symm hq)]
    · rw [ih2, hp1]
    · rw [ih3, hp2]

/-- The loop body of `claim_C9`, generalized over the accumulated result. -/
theorem runLoop_onesided_aux (positions : List (String × Int)) (p : ProductInput)
    (hside : p.buys = [] ∨ p.sells = []) :
    ∀ (products : List ProductInput)
      (acc : List (String × List (Int × Int))) (store : Store),
      p ∈ products →
      (products.map ProductInput.symbol).Nodup →
      alookup (runLoop positions (acc, store) products).1 p.symbol = some []
      ∧ alookup (runLoop positions (acc, store) products).2.windows p.symbol
          = alookup store.windows p.symbol
      ∧ alookup (runLoop positions (acc, store) products).2.positionLimits p.symbol
          = alookup store.positionLimits p.symbol := by
  intro products
  induction products with
  | nil => intro acc store hmem _; simp at hmem
  | cons q rest ih =>
    intro acc store hmem hnd
    rw [List.map_cons, List.nodup_cons] at hnd
    rcases List.mem_cons.1 hmem with rfl | hmem
    · -- the head is the one-sided product: it is skipped, and no later
      -- product touches its symbol again
      have hnot : ∀ x ∈ rest, x.symbol ≠ p.symbol := by
        intro x hx he
        exact hnd.1 (he ▸ List.mem_map_of_mem ProductInput.symbol hx)
      simp only [runLoop, runProduct_onesided store positions p hside]
      obtain ⟨h1, h2, h3⟩ := runLoop_untouched positions p.symbol rest
        (aset acc p.symbol []) store hnot
      exact ⟨h1.trans (alookup_aset_self _ _ _), h2, h3⟩
    · -- the head is a different product: it cannot touch `p.symbol`
      have hqs : q.symbol ≠ p.symbol := by
        intro he
        exact hnd.1 (he ▸ List.mem_map_of_mem ProductInput.symbol hmem)
      simp only [runLoop]
      obtain ⟨h1, h2, h3⟩ := ih (aset acc q.symbol (runProduct store positions q).1)
        (runProduct store positions q).2 hmem hnd.2
      obtain ⟨hp1, hp2⟩ := runProduct_preserves store positions q p.symbol
        (Ne.symm hqs)
      exact ⟨h1, h2.trans hp1, h3.trans hp2⟩

/-- Claim C9 (confirmed): in a cycle whose products carry distinct
symbols, an instrument whose book is empty or one-sided is mapped to the
empty order list in the cycle's result, and the loop neither creates nor
modifies that instrument's position-limit or window entry. -/
theorem claim_C9 (positions : List (String × Int)) (store : Store)
    (products : List ProductInput) (p : ProductInput)
    (hmem : p ∈ products)
    (hside : p.buys = [] ∨ p.sells = [])
    (hnd : (products.map ProductInput.symbol).Nodup) :
    alookup (runLoop positions ([], store) products).1 p.symbol = some []
    ∧ alookup (runLoop positions ([], store) products).2.windows p.symbol
        = alookup store.windows p.symbol
    ∧ alookup (runLoop positions ([], store) products).2.positionLimits p.symbol
        = alookup store.positionLimits p.symbol :=
  runLoop_onesided_aux positions p hside products [] store hmem hnd

/-- Claim C9 witness: a cycle over instruments "A" (two-sided) and "B"
(sell side empty) maps "B" to an empty order list and leaves the store,
here the default store, without any entry for "B". -/
theorem claim_C9_witness :
    alookup (runLoop [] ([], defaultStore)
        [⟨"A", [(10,5)], [(12,-4)]⟩, ⟨"B", [(10,5)], []⟩]).1 "B" = some []
    ∧ alookup (runLoop [] ([], defaultStore)
        [⟨"A", [(10,5)], [(12,-4)]⟩, ⟨"B", [(10,5)], []⟩]).2.windows "B"
        = alookup defaultStore.windows "B"
    ∧ alookup (runLoop [] ([], defaultStore)
        [⟨"A", [(10,5)], [(12,-4)]⟩, ⟨"B", [(10,5)], []⟩]).2.positionLimits "B"
        = alookup defaultStore.positionLimits "B" :=
  claim_C9 [] defaultStore [⟨"A", [(10,5)], [(12,-4)]⟩, ⟨"B", [(10,5)], []⟩]
    ⟨"B", [(10,5)], []⟩ (by simp) (Or.inr rfl) (by simp)

/-! ## Claim C4: snapshot / restore round trip -/

theorem asBoolList_map_jbool (w : List Bool) :
    asBoolList (w.map JVal.jbool) = Except.ok w := by
  induction w with
  | nil => rfl
  | cons b bs ih =>
    simp [asBoolList, asBool, ih, Bind.bind, Except.bind, pure, Except.pure]

theorem asWindow_snapshot (w : List Bool) (h : w.length ≤ 10) :
    asWindow (JVal.jarr (w.map JVal.jbool)) = Except.ok w := by
  simp [asWindow, asBoolList_map_jbool, Bind.bind, Except.bind, pure, Except.pure]
  have : w.length - 10 = 0 := by omega
  rw [this, List.drop_zero]

theorem decodeWindowFields_snapshot (l : List (String × List Bool))
    (h : ∀ p ∈ l, p.2.length ≤ 10) :
    decodeWindowFields (l.map (fun p => (p.1, JVal.jarr (p.2.map JVal.jbool))))
      = Except.ok l := by
  induction l with
  | nil => rfl
  | cons p rest ih =>
    have hp := h p (List.mem_cons_self _ _)
    have hrest := fun x hx => h x (List.mem_cons_of_mem _ hx)
    simp [decodeWindowFields, asWindow_snapshot p.2 hp, ih hrest,
      Bind.bind, Except.bind, pure, Except.pure]

theorem decodeLimitFields_snapshot (l : List (String × Int)) :
    decodeLimitFields (l.map (fun p => (p.1, JVal.jnum p.2))) = Except.ok l := by
  induction l with
  | nil => rfl
  | cons p rest ih =>
    simp [decodeLimitFields, ih, Bind.bind, Except.bind, pure, Except.pure]

theorem aset_eq_append {α : Type} (m : List (String × α)) (k : String) (v : α)
    (h : ∀ p ∈ m, p.1 ≠ k) : aset m k v = m ++ [(k, v)] := by
  induction m with
  | nil => rfl
  | cons p rest ih =>
    have hp := h p (List.mem_cons_self _ _)
    simp only [aset, if_neg hp, List.cons_append]
    rw [ih (fun x hx => h x (List.mem_cons_of_mem _ hx))]

theorem foldl_aset_of_nodup {α : Type} :
    ∀ (l m : List (String × α)),
      (∀ p ∈ l, ∀ q ∈ m, q.1 ≠ p.1) →
      (l.map Prod.fst).Nodup →
      l.foldl (fun acc p => aset acc p.1 p.2) m = m ++ l := by
  intro l
  induction l with
  | nil => intro m _ _; simp
  | cons p rest ih =>
    intro m hdisj hnd
    rw [List.map_cons, List.nodup_cons] at hnd
    simp only [List.foldl_cons]
    rw [aset_eq_append m p.1 p.2 (fun q hq => hdisj p (List.mem_cons_self _ _) q hq)]
    rw [ih (m ++ [(p.1, p.2)]) ?_ hnd.2]
    · simp
    · intro x hx q hq
      rcases List.mem_append.1 hq with hq | hq
      · exact hdisj x (List.mem_cons_of_mem _ hx) q hq
      · rcases List.mem_singleton.1 hq with rfl
        intro he
        exact hnd.1 (he ▸ List.mem_map_of_mem Prod.fst hx)

/-- Claim C4 (confirmed): for every store state with per-symbol windows of
at most 10 booleans (any state `snapshot` can have produced) and distinct
window keys, restoring the snapshot blob into a fresh default store
reproduces the state exactly: same per-symbol position limits and same
per-symbol window contents in the same order. -/
theorem claim_C4 (s : Store)
    (h10 : ∀ p ∈ s.windows, p.2.length ≤ 10)
    (hnd : (s.windows.map Prod.fst).Nodup) :
    restore (snapshot s) defaultStore = Except.ok s := by
  obtain ⟨slim, swin⟩ := s
  simp [restore, restoreWindows, restoreLimits, snapshot, hasKeyPy, getItemPy,
    decodeWindows, decodeLimits,
    decodeWindowFields_snapshot swin h10, decodeLimitFields_snapshot slim,
    Bind.bind, Except.bind, pure, Except.pure, defaultStore,
    foldl_aset_of_nodup swin [] (by simp) hnd]

/-- Claim C4 witness: a store with one symbol, limit 20 and window
`[true, false]`, survives the snapshot/restore round trip. -/
theorem claim_C4_witness :
    restore (snapshot ⟨[("A", 20)], [("A", [true, false])]⟩) defaultStore
      = Except.ok ⟨[("A", 20)], [("A", [true, false])]⟩ :=
  claim_C4 ⟨[("A", 20)], [("A", [true, false])]⟩ (by decide) (by simp)

/-! ## Claim C6: the window bound is invariant across cycles -/

/-- The entry just pushed is always the last element of the window. -/
theorem pushWindow_getLast (w : List Bool) (b : Bool) :
    (pushWindow w b).getLast? = some b := by
  simp only [pushWindow, List.length_append, List.length_cons, List.length_nil]
  rw [List.drop_append_of_le_length (by omega)]
  exact List.getLast?_concat _

/-- A pushed window never exceeds 10 entries. -/
theorem pushWindow_length_le (w : List Bool) (b : Bool) :
    (pushWindow w b).length ≤ 10 := by
  rw [pushWindow_length]
  omega

theorem alookup_aset_bound {α : Type} (P : α → Prop) (m : List (String × α))
    (k : String) (v : α)
    (hm : ∀ sym w, alookup m sym = some w → P w) (hv : P v) :
    ∀ sym w, alookup (aset m k v) sym = some w → P w := by
  intro sym w hl
  by_cases hs : sym = k
  · subst hs
    rw [alookup_aset_self] at hl
    exact (Option.some.injEq _ _ ▸ hl : v = w) ▸ hv
  · rw [alookup_aset_ne _ _ _ _ hs] at hl
    exact hm sym w hl

/-- A window read back from a blob (through `deque(·, maxlen=10)`) has at
most 10 entries. -/
theorem asWindow_len (v : JVal) (w : List Bool) (h : asWindow v = Except.ok w) :
    w.length ≤ 10 := by
  cases v <;> simp [asWindow, Bind.bind, Except.bind, pure, Except.pure] at h
  rename_i es
  rcases hbs : asBoolList es with e | bs <;> rw [hbs] at h <;> simp at h
  rw [← h]
  simp [List.length_drop]
  omega

/-- Destructure a successful `Except` bind. -/
theorem except_bind_ok {α β : Type} {x : Except String α} {f : α → Except String β}
    {b : β} (h : (x >>= f) = Except.ok b) :
    ∃ a, x = Except.ok a ∧ f a = Except.ok b := by
  cases x with
  | error e => simp [Bind.bind, Except.bind] at h
  | ok a => exact ⟨a, rfl, by simpa [Bind.bind, Except.bind] using h⟩

theorem decodeWindowFields_len :
    ∀ (fields : List (String × JVal)) (ws : List (String × List Bool)),
      decodeWindowFields fields = Except.ok ws → ∀ p ∈ ws, p.2.length ≤ 10 := by
  intro fields
  induction fields with
  | nil =>
    intro ws h p hp
    simp only [decodeWindowFields] at h
    injection h with h
    subst h
    simp at hp
  | cons f rest ih =>
    intro ws h p hp
    unfold decodeWindowFields at h
    obtain ⟨w, hw, h⟩ := except_bind_ok h
    obtain ⟨ws', hr, h⟩ := except_bind_ok h
    simp [pure, Except.pure] at h
    rw [← h] at hp
    rcases List.mem_cons.1 hp with rfl | hp'
    · exact asWindow_len f.2 w hw
    · exact ih ws' hr p hp'

theorem decodeWindows_len (v : JVal) (ws : List (String × List Bool))
    (h : decodeWindows v = Except.ok ws) : ∀ p ∈ ws, p.2.length ≤ 10 := by
  cases v <;> simp [decodeWindows] at h
  exact decodeWindowFields_len _ ws h

theorem foldl_aset_len :
    ∀ (ws : List (String × List Bool)) (m : List (String × List Bool)),
      (∀ p ∈ ws, p.2.length ≤ 10) →
      (∀ sym w, alookup m sym = some w → w.length ≤ 10) →
      ∀ sym w, alookup (ws.foldl (fun acc p => aset acc p.1 p.2) m) sym = some w →
        w.length ≤ 10 := by
  intro ws
  induction ws with
  | nil => intro m _ hm; exact hm
  | cons p rest ih =>
    intro m hws hm
    simp only [List.foldl_cons]
    exact ih (aset m p.1 p.2)
      (fun x hx => hws x (List.mem_cons_of_mem _ hx))
      (alookup_aset_bound _ m p.1 p.2 hm (hws p (List.mem_cons_self _ _)))

theorem restoreWindows_bound (v : JVal) (store store' : Store)
    (hwb : ∀ sym w, alookup store.windows sym = some w → w.length ≤ 10)
    (h : restoreWindows v store = Except.ok store') :
    ∀ sym w, alookup store'.windows sym = some w → w.length ≤ 10 := by
  unfold restoreWindows at h
  obtain ⟨bw, hk, h⟩ := except_bind_ok h
  cases bw with
  | false =>
    simp [pure, Except.pure] at h
    rw [← h]
    exact hwb
  | true =>
    rw [if_pos rfl] at h
    obtain ⟨wv, hg, h⟩ := except_bind_ok h
    obtain ⟨ws, hd, h⟩ := except_bind_ok h
    simp [pure, Except.pure] at h
    rw [← h]
    exact foldl_aset_len ws store.windows (decodeWindows_len wv ws hd) hwb

theorem restoreLimits_windows_eq (v : JVal) (store store' : Store)
    (h : restoreLimits v store = Except.ok store') :
    store'.windows = store.windows := by
  unfold restoreLimits at h
  obtain ⟨bl, hk, h⟩ := except_bind_ok h
  cases bl with
  | false =>
    simp [pure, Except.pure] at h
    rw [← h]
  | true =>
    rw [if_pos rfl] at h
    obtain ⟨lv, hg, h⟩ := except_bind_ok h
    obtain ⟨ls, hd, h⟩ := except_bind_ok h
    simp [pure, Except.pure] at h
    rw [← h]

theorem restore_bound (b : Blob) (store store' : Store)
    (hwb : ∀ sym w, alookup store.windows sym = some w → w.length ≤ 10)
    (h : restore b store = Except.ok store') :
    ∀ sym w, alookup store'.windows sym = some w → w.length ≤ 10 := by
  cases b with
  | emptyStr => simp [restore] at h; rw [← h]; exact hwb
  | decodeError => simp [restore] at h; rw [← h]; exact hwb
  | val v =>
    unfold restore at h
    obtain ⟨s1, hr, h⟩ := except_bind_ok h
    rw [restoreLimits_windows_eq v s1 store' h]
    exact restoreWindows_bound v store s1 hwb hr

theorem runProduct_bound (store : Store) (positions : List (String × Int))
    (p : ProductInput)
    (hwb : ∀ sym w, alookup store.windows sym = some w → w.length ≤ 10) :
    ∀ sym w, alookup (runProduct store positions p).2.windows sym = some w →
      w.length ≤ 10 := by
  unfold runProduct
  split_ifs with hc
  · rcases hw : alookup store.windows p.symbol with _ | w0 <;> simp only [hw]
    · refine alookup_aset_bound _ _ _ _ ?_ ?_
      · exact alookup_aset_bound _ _ _ _ hwb (by simp)
      · rw [quoteFull_window']
        exact pushWindow_length_le _ _
    · refine alookup_aset_bound _ _ _ _ hwb ?_
      rw [quoteFull_window']
      exact pushWindow_length_le _ _
  · exact hwb

theorem runLoop_bound (positions : List (String × Int)) :
    ∀ (products : List ProductInput)
      (acc : List (String × List (Int × Int))) (store : Store),
      (∀ sym w, alookup store.windows sym = some w → w.length ≤ 10) →
      ∀ sym w, alookup (runLoop positions (acc, store) products).2.windows sym
          = some w → w.length ≤ 10 := by
  intro products
  induction products with
  | nil => intro acc store hwb; exact hwb
  | cons q rest ih =>
    intro acc store hwb
    simp only [runLoop]
    exact ih _ _ (runProduct_bound store positions q hwb)

theorem runCycle_bound (store : Store) (inp : CycleInput)
    (r : List (String × List (Int × Int)) × Store × Blob)
    (hwb : ∀ sym w, alookup store.windows sym = some w → w.length ≤ 10)
    (h : runCycle store inp = Except.ok r) :
    ∀ sym w, alookup r.2.1.windows sym = some w → w.length ≤ 10 := by
  unfold runCycle at h
  obtain ⟨s1, hr, h⟩ := except_bind_ok h
  simp [pure, Except.pure] at h
  rw [← h]
  exact runLoop_bound inp.positions inp.products [] s1
    (restore_bound inp.blob store s1 hwb hr)

/-- Claim C6 (confirmed): after any sequence of decision cycles starting
from the fresh store (each cycle restoring an arbitrary blob, quoting
every two-sided product and snapshotting), every instrument's liquidation
window holds at most 10 entries; and the entry most recently pushed onto a
window is always its last element. -/
theorem claim_C6 (inputs : List CycleInput) (store' : Store)
    (h : runCycles defaultStore inputs = Except.ok store') :
    (∀ sym w, alookup store'.windows sym = some w → w.length ≤ 10)
    ∧ ∀ (w : List Bool) (b : Bool), (pushWindow w b).getLast? = some b := by
  refine ⟨?_, fun w b => pushWindow_getLast w b⟩
  have haux : ∀ (ins : List CycleInput) (s s' : Store),
      (∀ sym w, alookup s.windows sym = some w → w.length ≤ 10) →
      runCycles s ins = Except.ok s' →
      ∀ sym w, alookup s'.windows sym = some w → w.length ≤ 10 := by
    intro ins
    induction ins with
    | nil =>
      intro s s' hwb hh
      simp [runCycles] at hh
      rw [← hh]
      exact hwb
    | cons i rest ih =>
      intro s s' hwb hh
      simp only [runCycles, Bind.bind, Except.bind] at hh
      rcases hr : runCycle s i with e | r <;> rw [hr] at hh
      · simp at hh
      · exact ih r.2.1 s' (runCycle_bound s i r hwb hr) hh
  exact haux inputs defaultStore store' (by intro sym w hw; simp [defaultStore, alookup] at hw) h

/-- Claim C6 witness: one cycle over instrument "A" from the fresh store
yields the window `[false]`, which respects the bound, and a freshly
pushed entry is last. -/
theorem claim_C6_witness :
    ([false] : List Bool).length ≤ 10
    ∧ (pushWindow [] true).getLast? = some true := by
  have h := claim_C6 [⟨Blob.emptyStr, [⟨"A", [(10,5)], [(12,-4)]⟩], []⟩]
    ⟨[("A", 20)], [("A", [false])]⟩ rfl
  exact ⟨h.1 "A" [false] rfl, h.2 [] true⟩

end TraderModel
